import Mathlib

set_option maxHeartbeats 1000000

/-! Shallow embedding of src/mistral/arch.h (nextpnr, mistral architecture):
the routing-graph wire store, the lazy pip iterators, the wire/bel query
operations, and the LAB/ALM control-set legality interface. Machine integers
are modelled as Int/Nat; the std::unordered_map wire store is modelled as an
association list in an arbitrary storage order (the map's unspecified
iteration order corresponds to quantifying over all list orders). Checked
lookups (std::unordered_map::at, std::vector::at) are modelled as
Option-returning functions, none standing for the thrown out-of-range error. -/

/-- Interned identifier string (nextpnr IdString), modelled as a number. -/
abbrev IdString := Nat

/-- Mistral WireId wraps a routing-node number; the default-constructed
WireId() is the null handle, modelled as node = -1. -/
structure WireId where
  node : Int
deriving DecidableEq

/-- The null wire handle WireId(). -/
def WireId.null : WireId := ⟨-1⟩

/-- Mistral PipId is a (source node, destination node) pair; it is never
stored, only synthesized by the iterators. -/
structure PipId where
  src : Int
  dst : Int
deriving DecidableEq

/-- Mistral BelId: a packed tile position plus a z index. The
default-constructed BelId() is the null handle, modelled as (-1, -1). -/
structure BelId where
  pos : Int
  z : Int
deriving DecidableEq

/-- The null bel handle BelId(). -/
def BelId.null : BelId := ⟨-1, -1⟩

/-- nextpnr PortType. -/
inductive PortType where
  | PORT_IN
  | PORT_OUT
  | PORT_INOUT
deriving DecidableEq

/-- PinInfo from arch.h: the wire a bel pin connects to and its direction. -/
structure PinInfo where
  wire : WireId
  dir : PortType
deriving DecidableEq

/-- nextpnr BelPin: a (bel, pin name) endpoint attached to a wire. -/
structure BelPin where
  bel : BelId
  pin : IdString
deriving DecidableEq

/-- WireInfo from arch.h: per-wire adjacency data. wires_downhill and
wires_uphill hold the neighbour WireIds; pips are synthesized from them. -/
structure WireInfo where
  name_override : IdString
  wires_downhill : List WireId
  wires_uphill : List WireId
  bel_pins : List BelPin
  flags : Nat
deriving DecidableEq

/-- The Arch::wires member, a std::unordered_map from WireId to WireInfo,
modelled as an association list in storage order. -/
abbrev WireStore := List (WireId × WireInfo)

/-- getPipSrcWire from arch.h: WireId(pip.src). -/
def getPipSrcWire (pip : PipId) : WireId := ⟨pip.src⟩

/-- getPipDstWire from arch.h: WireId(pip.dst). -/
def getPipDstWire (pip : PipId) : WireId := ⟨pip.dst⟩

/-- The list of pips yielded by one full traversal of an UpDownhillPipRange:
operator* turns each stored WireId into a PipId by adding the missing half of
the pair (arch.h, UpDownhillPipIterator). -/
def upDownhillPips (v : List WireId) (other_wire : WireId) (is_uphill : Bool) :
    List PipId :=
  v.map (fun w =>
    if is_uphill then ⟨w.node, other_wire.node⟩ else ⟨other_wire.node, w.node⟩)

/-- Checked map lookup wires.at(w); none models the std::out_of_range throw. -/
def wiresAt (s : WireStore) (w : WireId) : Option WireInfo :=
  (s.find? (fun e => e.1 == w)).map (fun e => e.2)

/-- getPipsDownhill from arch.h: UpDownhillPipRange(wires.at(wire).wires_downhill,
wire, false). -/
def getPipsDownhill (s : WireStore) (wire : WireId) : Option (List PipId) :=
  (wiresAt s wire).map (fun info => upDownhillPips info.wires_downhill wire false)

/-- getPipsUphill from arch.h: UpDownhillPipRange(wires.at(wire).wires_uphill,
wire, true). -/
def getPipsUphill (s : WireStore) (wire : WireId) : Option (List PipId) :=
  (wiresAt s wire).map (fun info => upDownhillPips info.wires_uphill wire true)

/-- getWireBelPins from arch.h: wires.at(wire).bel_pins. -/
def getWireBelPins (s : WireStore) (wire : WireId) : Option (List BelPin) :=
  (wiresAt s wire).map (fun info => info.bel_pins)

/-- getWires from arch.h: AllWireRange = key_range over the wires map, i.e.
the keys of the store in storage order. -/
def getWires (s : WireStore) : List WireId := s.map (fun e => e.1)

/-- Modelled from the spec: `wires_connected(src, dst)` is implemented in
src/mistral/arch.cc, which is absent from src/ (arch.h line 339 only declares
it); the spec states it is "true iff dst appears in src.downhill". A missing
src wire has no downhill list, so the probe is false. -/
def wires_connected (s : WireStore) (src dst : WireId) : Bool :=
  match wiresAt s src with
  | none => false
  | some info => info.wires_downhill.contains dst

/-- Update the stored WireInfo of one wire in place, leaving keys unchanged. -/
def updateWire (s : WireStore) (w : WireId) (f : WireInfo → WireInfo) :
    WireStore :=
  s.map (fun e => if e.1 = w then (e.1, f e.2) else e)

/-- Modelled from the spec: `add_pip(src, dst)` is implemented in
src/mistral/arch.cc, which is absent from src/ (arch.h line 393 only declares
it); the spec states it "appends dst to src's downhill list and src to dst's
uphill list", both appends mandatory together. -/
def add_pip (s : WireStore) (src dst : WireId) : WireStore :=
  updateWire
    (updateWire s src (fun i => { i with wires_downhill := i.wires_downhill ++ [dst] }))
    dst (fun i => { i with wires_uphill := i.wires_uphill ++ [src] })

/-- A freshly created wire record: empty adjacency, no bel pins. -/
def emptyWireInfo : WireInfo := ⟨0, [], [], [], 0⟩

/-- Modelled from the spec: `add_wire` is implemented in src/mistral/arch.cc,
which is absent from src/ (arch.h line 392 only declares it); the spec states
it "creates a wire if absent; returns existing handle if an identical wire
already exists". -/
def add_wire (s : WireStore) (w : WireId) : WireStore :=
  if s.any (fun e => e.1 == w) then s else s ++ [(w, emptyWireInfo)]

/-- Wire stores reachable by device-model construction: starting empty and
applying add_wire / add_pip (construction code adds both endpoint wires
before adding a pip between them). -/
inductive Constructed : WireStore → Prop where
  | nil : Constructed []
  | wire {s : WireStore} {w : WireId} : Constructed s → Constructed (add_wire s w)
  | pip {s : WireStore} {src dst : WireId} : Constructed s →
      (wiresAt s src).isSome = true → (wiresAt s dst).isSome = true →
      Constructed (add_pip s src dst)

/-! The all-pips iterator (arch.h, AllPipIterator / AllPipRange): walks the
wire map in storage order, and for each wire yields one pip per entry of its
uphill list. The iterator state is the remaining suffix of the store (the
map iterator position) plus the current uphill-list index. -/

/-- State of an AllPipIterator: `base` is the remaining suffix of the wire
store from the current position to the end, `uphill_idx` the int index. -/
structure AllPipIterator where
  base : WireStore
  uphill_idx : Int
deriving DecidableEq

/-- The while loop of AllPipIterator::operator++: while the position is not
the end and uphill_idx ≥ the current wire's uphill-list size, reset
uphill_idx to 0 and advance the wire position. -/
def allPipSkip : WireStore → Int → AllPipIterator
  | [], i => ⟨[], i⟩
  | (w, info) :: rest, i =>
      if (info.wires_uphill.length : Int) ≤ i then allPipSkip rest 0
      else ⟨(w, info) :: rest, i⟩

/-- AllPipIterator::operator++: increment uphill_idx by one, then run the
skip loop. -/
def AllPipIterator.inc (st : AllPipIterator) : AllPipIterator :=
  allPipSkip st.base (st.uphill_idx + 1)

/-- The end sentinel of AllPipRange: position at the map's end, index 0. -/
def allPipEnd : AllPipIterator := ⟨[], 0⟩

/-- AllPipIterator::operator!= compared against the end sentinel: positions
differ or indices differ. -/
def AllPipIterator.neqEnd (st : AllPipIterator) : Bool :=
  !st.base.isEmpty || st.uphill_idx != 0

/-- AllPipIterator::operator*: PipId(base->second.wires_uphill.at(uphill_idx)
.node, base->first.node). none models dereferencing past the map's end or
vector::at on an out-of-range index. -/
def AllPipIterator.derefO (st : AllPipIterator) : Option PipId :=
  match st.base with
  | [] => none
  | (w, info) :: _ =>
      if st.uphill_idx < 0 then none
      else (info.wires_uphill[st.uphill_idx.toNat]?).map (fun u => ⟨u.node, w.node⟩)

/-- AllPipRange::begin(): start the iterator at index -1 and increment it
once, which skips any leading wires with no uphill pips. -/
def allPipBegin (wires : WireStore) : AllPipIterator :=
  AllPipIterator.inc ⟨wires, -1⟩

/-- One full traversal of the range, as a fuelled loop: while the iterator
differs from the end sentinel, yield the dereferenced pip and increment.
Running out of fuel or an invalid dereference yields none. -/
def allPipTraverse : Nat → AllPipIterator → Option (List PipId)
  | 0, _ => none
  | n + 1, st =>
      if st.neqEnd then
        match st.derefO with
        | none => none
        | some p => (allPipTraverse n st.inc).map (fun l => p :: l)
      else some []

/-- Total number of uphill-list entries in a store suffix. -/
def pendingPips : WireStore → Nat
  | [] => 0
  | (_, info) :: rest => info.wires_uphill.length + pendingPips rest

/-- getPips from arch.h (AllPipRange over the wires map), as the list of pips
produced by one full traversal from begin() to end(); the fuel is an upper
bound on the number of iterator increments. -/
def getPips (wires : WireStore) : Option (List PipId) :=
  allPipTraverse (pendingPips wires + wires.length + 1) (allPipBegin wires)

/-- The pips contributed by a store suffix, starting at index i of the first
wire's uphill list: the expected yield of the traversal. -/
def allPipsFrom : WireStore → Nat → List PipId
  | [], _ => []
  | (w, info) :: rest, i =>
      (info.wires_uphill.drop i).map (fun u => ⟨u.node, w.node⟩) ++ allPipsFrom rest 0

/-- Every pip of the store: one per uphill-list entry of every wire. -/
def allPipsOf (wires : WireStore) : List PipId := allPipsFrom wires 0

/-- Iterator states that the range can actually reach: either the end
sentinel, or a position whose index is in bounds for the current wire. -/
def GoodIter : AllPipIterator → Prop
  | ⟨[], i⟩ => i = 0
  | ⟨(_, info) :: _, i⟩ => 0 ≤ i ∧ i.toNat < info.wires_uphill.length

/-- The pips still to be yielded from an iterator state. -/
def collectIter (st : AllPipIterator) : List PipId :=
  allPipsFrom st.base st.uphill_idx.toNat

/-- Fuel bound for the remaining traversal from an iterator state. -/
def iterFuel (st : AllPipIterator) : Nat :=
  match st.base with
  | [] => 0
  | (_, info) :: rest =>
      (info.wires_uphill.length - st.uphill_idx.toNat) + pendingPips rest +
        rest.length + 1

/-- Iterator states reachable by a traversal: begin(), and the increment of
any reachable state that is not the end sentinel (the only states C++ code
may legally increment). -/
inductive ReachableIter (wires : WireStore) : AllPipIterator → Prop where
  | init : ReachableIter wires (allPipBegin wires)
  | step {st : AllPipIterator} : ReachableIter wires st → st.neqEnd = true →
      ReachableIter wires (st.inc)

/-- The two adjacency views agree: a wire B is listed downhill of A exactly
when A is listed uphill of B, over all wires present in the store. -/
def Agrees (s : WireStore) : Prop :=
  ∀ A B infoA infoB, wiresAt s A = some infoA → wiresAt s B = some infoB →
    (B ∈ infoA.wires_downhill ↔ A ∈ infoB.wires_uphill)

/-- No dangling adjacency entries: every wire mentioned in a downhill or
uphill list is itself a key of the store. -/
def ClosedStore (s : WireStore) : Prop :=
  ∀ e ∈ s, (∀ d ∈ e.2.wires_downhill, d ∈ getWires s) ∧
    (∀ u ∈ e.2.wires_uphill, u ∈ getWires s)

/-- Modelled from the spec: the per-ALM control-signal bindings that
is_lab_ctrlset_legal aggregates. The checker is implemented in
src/mistral/lab.cc, which is absent from src/ (arch.h line 410 only declares
it); the spec says each sub-unit holds which wires are bound to its
clock/enable/async-clear (and sync-clear/sync-load) control pins. -/
structure ALMCtrl where
  clk : List WireId
  ena : List WireId
  aclr : List WireId
  sclr : List WireId
  sload : List WireId
deriving DecidableEq

/-- A LAB's ten ALMs (LABInfo holds a ten-element std::array of ALMInfo). -/
structure LABCtrl where
  alms : Fin 10 → ALMCtrl

/-- All wires bound in one control category across the ten ALMs of a LAB. -/
def labCtrlWires (lab : LABCtrl) (f : ALMCtrl → List WireId) : List WireId :=
  (List.finRange 10).flatMap (fun i => f (lab.alms i))

/-- Modelled from the spec: `is_lab_ctrlset_legal(lab)` (src/mistral/lab.cc,
absent from src/): legal iff for each control category the number of distinct
control wires across the LAB's ALMs is at most the fixed capacity — 3 clocks,
3 enables, 2 async clears, 1 sync clear, 1 sync load (the capacities are the
sizes of LABInfo's clk_wires, ena_wires, aclr_wires, sclr_wire, sload_wire). -/
def is_lab_ctrlset_legal (lab : LABCtrl) : Bool :=
  decide ((labCtrlWires lab ALMCtrl.clk).dedup.length ≤ 3 ∧
    (labCtrlWires lab ALMCtrl.ena).dedup.length ≤ 3 ∧
    (labCtrlWires lab ALMCtrl.aclr).dedup.length ≤ 2 ∧
    (labCtrlWires lab ALMCtrl.sclr).dedup.length ≤ 1 ∧
    (labCtrlWires lab ALMCtrl.sload).dedup.length ≤ 1)

/-- The recoverable failure of the pin-reassignment search. -/
structure UnresolvableBindingError where
deriving DecidableEq

/-- One pass of the bounded permutation search: try candidate assignments in
order, returning the number of attempts made together with the first
satisfying assignment, or the error when the list is exhausted. -/
def permSearch (ok : List WireId → Bool) :
    List (List WireId) → Nat × Except UnresolvableBindingError (List WireId)
  | [] => (0, Except.error ⟨⟩)
  | p :: rest =>
      if ok p then (1, Except.ok p)
      else
        let r := permSearch ok rest
        (r.1 + 1, r.2)

/-- Modelled from the spec: `reassign_alm_inputs` (src/mistral/lab.cc, absent
from src/; arch.h line 417 only declares it) is a bounded local search that
permutes which physical input pin each logical input signal is bound to
within one ALM, keeping the set of selected wires fixed; `ok` is the
dependent packing constraint of the sub-unit. It fails with
UnresolvableBindingError when no permutation of the inputs satisfies the
packing. Returns (number of permutation attempts, result). -/
def reassign_alm_inputs (inputs : List WireId) (ok : List WireId → Bool) :
    Nat × Except UnresolvableBindingError (List WireId) :=
  permSearch ok inputs.permutations

/-- nextpnr Loc: a (x, y, z) bel location. -/
structure Loc where
  x : Int
  y : Int
  z : Int
deriving DecidableEq

/-- BelInfo from arch.h (the lab_data union member is omitted; no claim
reads it). -/
structure BelInfo where
  name : IdString
  type : IdString
  bucket : IdString
  block_index : Int
  pins : List (IdString × PinInfo)
deriving DecidableEq

/-- Packing of (x, y) into a CycloneV position. The real packing lives in
the external cyclonev library (an excluded collaborator per the spec); only
the produced value's identity matters to the embedded code, never its shape. -/
def xy2pos (x y : Int) : Int := x * 16384 + y

/-- The grid data getBelByLocation consults: dimensions from the geometry
oracle and the per-tile bel lists (Arch::bels_by_tile). -/
structure MistralGrid where
  tile_sx : Int
  tile_sy : Int
  bels_by_tile : List (List BelInfo)

/-- pos2idx from arch.h: y * width + x. -/
def pos2idx (g : MistralGrid) (x y : Int) : Int := y * g.tile_sx + x

/-- getBelByLocation from arch.h: out-of-grid x or y returns the null BelId;
then the tile's bel list is fetched with bels_by_tile.at (none models the
throw); an out-of-range z returns the null BelId; otherwise the located bel. -/
def getBelByLocation (g : MistralGrid) (loc : Loc) : Option BelId :=
  if loc.x < 0 ∨ g.tile_sx ≤ loc.x then some BelId.null
  else if loc.y < 0 ∨ g.tile_sy ≤ loc.y then some BelId.null
  else
    match g.bels_by_tile[(pos2idx g loc.x loc.y).toNat]? with
    | none => none
    | some bels =>
        if loc.z < 0 ∨ (bels.length : Int) ≤ loc.z then some BelId.null
        else some ⟨xy2pos loc.x loc.y, loc.z⟩

/-- getBelPinWire from arch.h: probe bel_data(bel).pins for the pin name and
return its wire, or the null WireId when the pin is absent (pins.find, not
pins.at). The bel_data handle-to-record step is modelled by passing the
bel's BelInfo record directly. -/
def getBelPinWire (b : BelInfo) (pin : IdString) : WireId :=
  match b.pins.find? (fun e => e.1 == pin) with
  | none => WireId.null
  | some e => e.2.wire

theorem allPipSkip_good (base : WireStore) (j : Int) (h0 : 0 ≤ j)
    (h1 : base = [] → j = 0) : GoodIter (allPipSkip base j) := by
  induction base generalizing j with
  | nil => simpa [allPipSkip, GoodIter] using h1 rfl
  | cons e rest ih =>
      obtain ⟨w, info⟩ := e
      by_cases hle : (info.wires_uphill.length : Int) ≤ j
      · simp only [allPipSkip, if_pos hle]
        rcases rest with _ | ⟨e2, rest2⟩
        · simp [allPipSkip, GoodIter]
        · exact ih 0 le_rfl (by simp)
      · simp only [allPipSkip, if_neg hle]
        exact ⟨h0, by omega⟩

theorem collectIter_allPipSkip (base : WireStore) (j : Int) (h0 : 0 ≤ j) :
    collectIter (allPipSkip base j) = allPipsFrom base j.toNat := by
  induction base generalizing j with
  | nil => simp [allPipSkip, collectIter, allPipsFrom]
  | cons e rest ih =>
      obtain ⟨w, info⟩ := e
      by_cases hle : (info.wires_uphill.length : Int) ≤ j
      · have hdrop : info.wires_uphill.drop j.toNat = [] :=
          List.drop_eq_nil_of_le (by omega)
        simp only [allPipSkip, if_pos hle, allPipsFrom, hdrop, List.map_nil,
          List.nil_append]
        simpa using ih 0 le_rfl
      · simp [allPipSkip, if_neg hle, collectIter]

theorem iterFuel_zero_le (base : WireStore) :
    iterFuel ⟨base, 0⟩ ≤ pendingPips base + base.length := by
  rcases base with _ | ⟨⟨w, info⟩, rest⟩
  · simp [iterFuel]
  · simp [iterFuel, pendingPips]
    omega

theorem iterFuel_allPipSkip (base : WireStore) (j : Int) :
    iterFuel (allPipSkip base j) ≤ iterFuel ⟨base, j⟩ := by
  induction base generalizing j with
  | nil => simp [allPipSkip]
  | cons e rest ih =>
      obtain ⟨w, info⟩ := e
      by_cases hle : (info.wires_uphill.length : Int) ≤ j
      · simp only [allPipSkip, if_pos hle]
        have h1 := ih 0
        have h2 := iterFuel_zero_le rest
        have hr : iterFuel ⟨(w, info) :: rest, j⟩ =
            info.wires_uphill.length - j.toNat + pendingPips rest +
              rest.length + 1 := rfl
        omega
      · simp [allPipSkip, if_neg hle]

theorem allPipTraverse_eq (n : Nat) (st : AllPipIterator) (hg : GoodIter st)
    (hf : iterFuel st < n) : allPipTraverse n st = some (collectIter st) := by
  induction n generalizing st with
  | zero => omega
  | succ n ih =>
      obtain ⟨base, i⟩ := st
      rcases base with _ | ⟨⟨w, info⟩, rest⟩
      · have hi : i = 0 := hg
        subst hi
        simp [allPipTraverse, AllPipIterator.neqEnd, collectIter, allPipsFrom]
      · obtain ⟨hi0, hilt⟩ := hg
        have hne : AllPipIterator.neqEnd ⟨(w, info) :: rest, i⟩ = true := by
          simp [AllPipIterator.neqEnd]
        have hderef : AllPipIterator.derefO ⟨(w, info) :: rest, i⟩ =
            some ⟨(info.wires_uphill[i.toNat]).node, w.node⟩ := by
          simp [AllPipIterator.derefO, not_lt.mpr hi0,
            List.getElem?_eq_getElem hilt]
        have hgood : GoodIter (AllPipIterator.inc ⟨(w, info) :: rest, i⟩) := by
          have hinc0 : AllPipIterator.inc ⟨(w, info) :: rest, i⟩ =
              allPipSkip ((w, info) :: rest) (i + 1) := rfl
          rw [hinc0]
          exact allPipSkip_good _ _ (by omega) (by intro h; simp at h)
        have hfuel : iterFuel (AllPipIterator.inc ⟨(w, info) :: rest, i⟩) < n := by
          have h1 := iterFuel_allPipSkip ((w, info) :: rest) (i + 1)
          have hr1 : iterFuel ⟨(w, info) :: rest, i + 1⟩ =
              info.wires_uphill.length - (i + 1).toNat + pendingPips rest +
                rest.length + 1 := rfl
          have hr2 : iterFuel ⟨(w, info) :: rest, i⟩ =
              info.wires_uphill.length - i.toNat + pendingPips rest +
                rest.length + 1 := rfl
          have hinc : AllPipIterator.inc ⟨(w, info) :: rest, i⟩ =
              allPipSkip ((w, info) :: rest) (i + 1) := rfl
          rw [hinc]
          omega
        have hcol : collectIter (AllPipIterator.inc ⟨(w, info) :: rest, i⟩) =
            allPipsFrom ((w, info) :: rest) (i.toNat + 1) := by
          have h3 := collectIter_allPipSkip ((w, info) :: rest) (i + 1) (by omega)
          have hinc : AllPipIterator.inc ⟨(w, info) :: rest, i⟩ =
              allPipSkip ((w, info) :: rest) (i + 1) := rfl
          rw [hinc, h3]
          congr 1
          omega
        rw [allPipTraverse, if_pos hne, hderef, ih _ hgood hfuel, hcol]
        have hstep : allPipsFrom ((w, info) :: rest) i.toNat =
            PipId.mk (info.wires_uphill[i.toNat]).node w.node ::
              allPipsFrom ((w, info) :: rest) (i.toNat + 1) := by
          have h2 : i.toNat <
              (List.map (fun u => PipId.mk u.node w.node) info.wires_uphill).length := by
            simpa using hilt
          simp only [allPipsFrom]
          rw [List.map_drop, List.map_drop, List.drop_eq_getElem_cons h2]
          simp
        have hci : collectIter ⟨(w, info) :: rest, i⟩ =
            allPipsFrom ((w, info) :: rest) i.toNat := rfl
        rw [hci, hstep]
        rfl

theorem allPipBegin_eq (wires : WireStore) :
    allPipBegin wires = allPipSkip wires 0 := by
  simp [allPipBegin, AllPipIterator.inc]

theorem getPips_eq (wires : WireStore) : getPips wires = some (allPipsOf wires) := by
  have hgood : GoodIter (allPipBegin wires) := by
    rw [allPipBegin_eq]
    rcases wires with _ | ⟨e, rest⟩
    · simp [allPipSkip, GoodIter]
    · exact allPipSkip_good _ 0 le_rfl (by simp)
  have hfuel : iterFuel (allPipBegin wires) < pendingPips wires + wires.length + 1 := by
    rw [allPipBegin_eq]
    have h1 := iterFuel_allPipSkip wires 0
    have h2 := iterFuel_zero_le wires
    omega
  have := allPipTraverse_eq _ _ hgood hfuel
  rw [getPips, this, allPipBegin_eq, collectIter_allPipSkip _ 0 le_rfl]
  rfl

theorem allPipsOf_length (wires : WireStore) :
    (allPipsOf wires).length = pendingPips wires := by
  induction wires with
  | nil => rfl
  | cons e rest ih =>
      obtain ⟨w, info⟩ := e
      simp only [allPipsOf, allPipsFrom, pendingPips] at ih ⊢
      simp [ih]

theorem allPipsOf_nil_of_empty (wires : WireStore)
    (h : ∀ e ∈ wires, e.2.wires_uphill = []) : allPipsOf wires = [] := by
  induction wires with
  | nil => rfl
  | cons e rest ih =>
      obtain ⟨w, info⟩ := e
      have h1 : info.wires_uphill = [] := h (w, info) (by simp)
      simp only [allPipsOf, allPipsFrom] at ih ⊢
      rw [h1]
      simp only [List.drop_nil, List.map_nil, List.nil_append]
      exact ih (fun e he => h e (by simp [he]))

theorem allPipBegin_good (wires : WireStore) : GoodIter (allPipBegin wires) := by
  rw [allPipBegin_eq]
  rcases wires with _ | ⟨e, rest⟩
  · simp [allPipSkip, GoodIter]
  · exact allPipSkip_good _ 0 le_rfl (by simp)

theorem allPipSkip_suffix (base : WireStore) (j : Int) :
    (allPipSkip base j).base.IsSuffix base := by
  induction base generalizing j with
  | nil => exact List.suffix_refl _
  | cons e rest ih =>
      obtain ⟨w, info⟩ := e
      by_cases hle : (info.wires_uphill.length : Int) ≤ j
      · simp only [allPipSkip, if_pos hle]
        exact (ih 0).trans (List.suffix_cons _ _)
      · simp only [allPipSkip, if_neg hle]
        exact List.suffix_refl _

theorem reachableIter_invariant (wires : WireStore) (st : AllPipIterator)
    (h : ReachableIter wires st) : GoodIter st ∧ st.base.IsSuffix wires := by
  induction h with
  | init =>
      refine ⟨allPipBegin_good wires, ?_⟩
      rw [allPipBegin_eq]
      exact allPipSkip_suffix wires 0
  | @step st hr hne ih =>
      obtain ⟨hg, hsuf⟩ := ih
      obtain ⟨base, i⟩ := st
      rcases base with _ | ⟨⟨w, info⟩, rest⟩
      · have hi : i = 0 := hg
        subst hi
        simp [AllPipIterator.neqEnd] at hne
      · obtain ⟨hi0, hilt⟩ := hg
        constructor
        · have hinc : AllPipIterator.inc ⟨(w, info) :: rest, i⟩ =
              allPipSkip ((w, info) :: rest) (i + 1) := rfl
          rw [hinc]
          exact allPipSkip_good _ _ (by omega) (by intro hh; simp at hh)
        · exact (allPipSkip_suffix ((w, info) :: rest) (i + 1)).trans hsuf

theorem goodIter_end_iff (st : AllPipIterator) (hg : GoodIter st) :
    st = allPipEnd ↔ collectIter st = [] := by
  obtain ⟨base, i⟩ := st
  rcases base with _ | ⟨⟨w, info⟩, rest⟩
  · have hi : i = 0 := hg
    subst hi
    simp [allPipEnd, collectIter, allPipsFrom]
  · obtain ⟨hi0, hilt⟩ := hg
    constructor
    · intro h
      simp [allPipEnd] at h
    · intro h
      exfalso
      have hlen : (collectIter ⟨(w, info) :: rest, i⟩).length ≠ 0 := by
        simp only [collectIter, allPipsFrom, List.length_append, List.length_map,
          List.length_drop]
        omega
      rw [h] at hlen
      exact hlen rfl

theorem wiresAt_cons (e : WireId × WireInfo) (rest : WireStore) (v : WireId) :
    wiresAt (e :: rest) v = if e.1 = v then some e.2 else wiresAt rest v := by
  by_cases h : e.1 = v <;> simp [wiresAt, List.find?_cons, h]

theorem wiresAt_append (s t : WireStore) (v : WireId) :
    wiresAt (s ++ t) v = (wiresAt s v).or (wiresAt t v) := by
  simp only [wiresAt, List.find?_append]
  cases h : s.find? (fun e => e.1 == v) <;> simp [Option.or]

theorem getWires_updateWire (s : WireStore) (w : WireId) (f : WireInfo → WireInfo) :
    getWires (updateWire s w f) = getWires s := by
  induction s with
  | nil => rfl
  | cons e rest ih =>
      simp only [updateWire, getWires, List.map_cons] at ih ⊢
      by_cases h : e.1 = w <;> simp [h, ih]

theorem wiresAt_updateWire (s : WireStore) (w : WireId) (f : WireInfo → WireInfo)
    (v : WireId) :
    wiresAt (updateWire s w f) v =
      if v = w then (wiresAt s v).map f else wiresAt s v := by
  induction s with
  | nil => by_cases h : v = w <;> simp [updateWire, wiresAt, h]
  | cons e rest ih =>
      simp only [updateWire, List.map_cons]
      rw [wiresAt_cons]
      have h1 : (if e.1 = w then (e.1, f e.2) else e).1 = e.1 := by
        split <;> rfl
      rw [h1]
      by_cases hev : e.1 = v
      · by_cases hvw : v = w
        · have hew : e.1 = w := by rw [hev, hvw]
          simp [wiresAt_cons, hev, hvw, hew]
        · have hew : ¬ e.1 = w := by rw [hev]; exact hvw
          simp [wiresAt_cons, hev, hvw, hew]
      · have ih2 : wiresAt (List.map (fun e => if e.1 = w then (e.1, f e.2) else e) rest) v =
            if v = w then (wiresAt rest v).map f else wiresAt rest v := by
          simpa [updateWire] using ih
        by_cases hvw : v = w
        · have hew : ¬ e.1 = w := fun hh => hev (by rw [hh, hvw])
          subst hvw
          simp [wiresAt_cons, hev, hew, ih2]
        · simp [wiresAt_cons, hev, hvw, ih2]

theorem mem_getWires (s : WireStore) (v : WireId) :
    v ∈ getWires s ↔ ∃ i, (v, i) ∈ s := by
  constructor
  · intro h
    obtain ⟨e, he, hv⟩ := List.mem_map.mp h
    obtain ⟨a, b⟩ := e
    have ha : a = v := hv
    subst ha
    exact ⟨b, he⟩
  · rintro ⟨i, hm⟩
    exact List.mem_map.mpr ⟨(v, i), hm, rfl⟩

theorem wiresAt_isSome_iff (s : WireStore) (v : WireId) :
    (wiresAt s v).isSome = true ↔ v ∈ getWires s := by
  induction s with
  | nil => simp [wiresAt, getWires]
  | cons e rest ih =>
      rw [wiresAt_cons]
      by_cases h : e.1 = v
      · rw [if_pos h]
        constructor
        · intro _
          exact List.mem_map.mpr ⟨e, List.mem_cons_self e rest, h⟩
        · intro _
          rfl
      · rw [if_neg h, ih]
        simp only [getWires, List.map_cons, List.mem_cons]
        constructor
        · intro hm
          exact Or.inr hm
        · intro hm
          rcases hm with hm | hm
          · exact absurd hm.symm h
          · exact hm

theorem wiresAt_eq_some_iff (s : WireStore) (v : WireId) (i : WireInfo)
    (hnd : (getWires s).Nodup) : wiresAt s v = some i ↔ (v, i) ∈ s := by
  induction s with
  | nil => simp [wiresAt]
  | cons e rest ih =>
      simp only [getWires, List.map_cons, List.nodup_cons] at hnd
      obtain ⟨hne, hnd2⟩ := hnd
      rw [wiresAt_cons]
      by_cases h : e.1 = v
      · simp only [if_pos h]
        constructor
        · intro hsome
          have hi : e.2 = i := by
            injection hsome
          rw [List.mem_cons]
          left
          rw [← hi, ← h]
        · intro hm
          rcases List.mem_cons.mp hm with hm | hm
          · rw [← hm]
          · exfalso
            apply hne
            rw [h]
            exact (mem_getWires rest v).mpr ⟨i, hm⟩
      · simp only [if_neg h]
        rw [ih hnd2, List.mem_cons]
        constructor
        · intro hm
          exact Or.inr hm
        · intro hm
          rcases hm with hm | hm
          · exfalso
            apply h
            rw [← hm]
          · exact hm


theorem any_key_iff (s : WireStore) (w : WireId) :
    s.any (fun e => e.1 == w) = true ↔ w ∈ getWires s := by
  rw [List.any_eq_true]
  simp only [beq_iff_eq, getWires, List.mem_map]

theorem getWires_append (s t : WireStore) :
    getWires (s ++ t) = getWires s ++ getWires t := by
  simp [getWires]

theorem getWires_add_pip (s : WireStore) (src dst : WireId) :
    getWires (add_pip s src dst) = getWires s := by
  simp [add_pip, getWires_updateWire]

theorem add_pip_wiresAt (s : WireStore) (src dst v : WireId) :
    wiresAt (add_pip s src dst) v =
      (wiresAt s v).map (fun i =>
        { i with
          wires_downhill := i.wires_downhill ++ (if v = src then [dst] else []),
          wires_uphill := i.wires_uphill ++ (if v = dst then [src] else []) }) := by
  simp only [add_pip, wiresAt_updateWire]
  by_cases h1 : v = dst
  · by_cases h2 : v = src
    · have h3 : dst = src := h1.symm.trans h2
      cases hx : wiresAt s v <;> simp [h1, h2, h3]
    · have h3 : ¬ dst = src := fun hh => h2 (h1.trans hh)
      cases hx : wiresAt s v <;> simp [h1, h2, h3]
  · by_cases h2 : v = src
    · have h3 : ¬ src = dst := fun hh => h1 (h2.trans hh)
      cases hx : wiresAt s v <;> simp [h1, h2, h3]
    · cases hx : wiresAt s v <;> simp [h1, h2]

theorem mem_add_pip (s : WireStore) (src dst : WireId) (e : WireId × WireInfo)
    (he : e ∈ add_pip s src dst) :
    ∃ e0 ∈ s, e.1 = e0.1 ∧
      e.2.wires_downhill = e0.2.wires_downhill ++ (if e0.1 = src then [dst] else []) ∧
      e.2.wires_uphill = e0.2.wires_uphill ++ (if e0.1 = dst then [src] else []) := by
  simp only [add_pip, updateWire, List.map_map, List.mem_map] at he
  obtain ⟨e0, he0, heq⟩ := he
  refine ⟨e0, he0, ?_⟩
  rw [← heq]
  simp only [Function.comp]
  by_cases h1 : e0.1 = src
  · by_cases h2 : e0.1 = dst
    · have h3 : src = dst := h1.symm.trans h2
      simp [h1, h2, h3]
    · have h3 : ¬ src = dst := fun hh => h2 (h1.trans hh)
      simp [h1, h2, h3]
  · by_cases h2 : e0.1 = dst
    · have h3 : ¬ dst = src := fun hh => h1 (h2.trans hh)
      simp [h1, h2, h3]
    · simp [h1, h2]

theorem constructed_invariant (s : WireStore) (h : Constructed s) :
    (getWires s).Nodup ∧ ClosedStore s ∧ Agrees s := by
  induction h with
  | nil =>
      refine ⟨by simp [getWires], ?_, ?_⟩
      · intro e he
        simp at he
      · intro A B iA iB hA hB
        simp [wiresAt] at hA
  | @wire s w hc ih =>
      obtain ⟨hnd, hcl, hag⟩ := ih
      by_cases hp : s.any (fun e => e.1 == w) = true
      · simpa [add_wire, hp] using ⟨hnd, hcl, hag⟩
      · have hnw : w ∉ getWires s := fun hm => hp ((any_key_iff s w).mpr hm)
        have hs2 : add_wire s w = s ++ [(w, emptyWireInfo)] := by
          simp [add_wire, hp]
        rw [hs2]
        have hgw : getWires (s ++ [(w, emptyWireInfo)]) = getWires s ++ [w] := by
          rw [getWires_append]
          rfl
        refine ⟨?_, ?_, ?_⟩
        · rw [hgw, List.nodup_append]
          refine ⟨hnd, by simp, ?_⟩
          intro a ha ha2
          simp at ha2
          rw [ha2] at ha
          exact hnw ha
        · intro e he
          rcases List.mem_append.mp he with he | he
          · obtain ⟨hd, hu⟩ := hcl e he
            constructor
            · intro d hd2
              rw [hgw]
              exact List.mem_append_left _ (hd d hd2)
            · intro u hu2
              rw [hgw]
              exact List.mem_append_left _ (hu u hu2)
          · have he2 : e = (w, emptyWireInfo) := by simpa using he
            subst he2
            constructor
            · intro d hd2
              simp [emptyWireInfo] at hd2
            · intro u hu2
              simp [emptyWireInfo] at hu2
        · intro A B iA iB hA hB
          rw [wiresAt_append] at hA hB
          have hsingle : ∀ v : WireId, ∀ iv : WireInfo,
              wiresAt [(w, emptyWireInfo)] v = some iv → w = v ∧ iv = emptyWireInfo := by
            intro v iv hv
            rw [wiresAt_cons] at hv
            by_cases hwv : w = v
            · refine ⟨hwv, ?_⟩
              rw [if_pos hwv] at hv
              injection hv with hh
              exact hh.symm
            · rw [if_neg hwv] at hv
              simp [wiresAt] at hv
          cases hA0 : wiresAt s A with
          | some i =>
              rw [hA0] at hA
              have hiA : i = iA := by
                simpa [Option.or] using hA
              subst hiA
              cases hB0 : wiresAt s B with
              | some j =>
                  rw [hB0] at hB
                  have hiB : j = iB := by
                    simpa [Option.or] using hB
                  subst hiB
                  exact hag A B i j hA0 hB0
              | none =>
                  rw [hB0] at hB
                  have hB1 : wiresAt [(w, emptyWireInfo)] B = some iB := by
                    simpa [Option.or] using hB
                  obtain ⟨hwB, hiB⟩ := hsingle B iB hB1
                  subst hiB
                  have hmem : (A, i) ∈ s :=
                    (wiresAt_eq_some_iff s A i hnd).mp hA0
                  obtain ⟨hd, _⟩ := hcl (A, i) hmem
                  constructor
                  · intro hm
                    exfalso
                    exact hnw (by rw [hwB]; exact hd B hm)
                  · intro hm
                    exfalso
                    simp [emptyWireInfo] at hm
          | none =>
              rw [hA0] at hA
              have hA1 : wiresAt [(w, emptyWireInfo)] A = some iA := by
                simpa [Option.or] using hA
              obtain ⟨hwA, hiA⟩ := hsingle A iA hA1
              subst hiA
              constructor
              · intro hm
                exfalso
                simp [emptyWireInfo] at hm
              · intro hm
                exfalso
                cases hB0 : wiresAt s B with
                | some j =>
                    rw [hB0] at hB
                    have hiB : j = iB := by
                      simpa [Option.or] using hB
                    subst hiB
                    have hmem : (B, j) ∈ s :=
                      (wiresAt_eq_some_iff s B j hnd).mp hB0
                    obtain ⟨_, hu⟩ := hcl (B, j) hmem
                    exact hnw (by rw [hwA]; exact hu A hm)
                | none =>
                    rw [hB0] at hB
                    have hB1 : wiresAt [(w, emptyWireInfo)] B = some iB := by
                      simpa [Option.or] using hB
                    obtain ⟨hwB, hiB⟩ := hsingle B iB hB1
                    subst hiB
                    simp [emptyWireInfo] at hm
  | @pip s src dst hc hsrc hdst ih =>
      obtain ⟨hnd, hcl, hag⟩ := ih
      have hdstm : dst ∈ getWires s := by
        rw [← wiresAt_isSome_iff]
        exact hdst
      have hsrcm : src ∈ getWires s := by
        rw [← wiresAt_isSome_iff]
        exact hsrc
      refine ⟨?_, ?_, ?_⟩
      · rw [getWires_add_pip]
        exact hnd
      · intro e he
        obtain ⟨e0, he0, hkey, hdl, hul⟩ := mem_add_pip s src dst e he
        obtain ⟨hd, hu⟩ := hcl e0 he0
        constructor
        · intro d hd2
          rw [getWires_add_pip]
          rw [hdl] at hd2
          rcases List.mem_append.mp hd2 with h2 | h2
          · exact hd d h2
          · by_cases hc2 : e0.1 = src
            · rw [if_pos hc2] at h2
              simp at h2
              rw [h2]
              exact hdstm
            · rw [if_neg hc2] at h2
              simp at h2
        · intro u hu2
          rw [getWires_add_pip]
          rw [hul] at hu2
          rcases List.mem_append.mp hu2 with h2 | h2
          · exact hu u h2
          · by_cases hc2 : e0.1 = dst
            · rw [if_pos hc2] at h2
              simp at h2
              rw [h2]
              exact hsrcm
            · rw [if_neg hc2] at h2
              simp at h2
      · intro A B iA iB hA hB
        rw [add_pip_wiresAt] at hA hB
        obtain ⟨iA0, hA0, hiA⟩ := Option.map_eq_some'.mp hA
        obtain ⟨iB0, hB0, hiB⟩ := Option.map_eq_some'.mp hB
        have hDl : iA.wires_downhill =
            iA0.wires_downhill ++ (if A = src then [dst] else []) := by
          rw [← hiA]
        have hUl : iB.wires_uphill =
            iB0.wires_uphill ++ (if B = dst then [src] else []) := by
          rw [← hiB]
        have key := hag A B iA0 iB0 hA0 hB0
        rw [hDl, hUl]
        constructor
        · intro hm
          rcases List.mem_append.mp hm with hm | hm
          · exact List.mem_append_left _ (key.mp hm)
          · by_cases hc2 : A = src
            · rw [if_pos hc2] at hm
              simp at hm
              apply List.mem_append_right
              simp [hm, hc2]
            · rw [if_neg hc2] at hm
              simp at hm
        · intro hm
          rcases List.mem_append.mp hm with hm | hm
          · exact List.mem_append_left _ (key.mpr hm)
          · by_cases hc2 : B = dst
            · rw [if_pos hc2] at hm
              simp at hm
              apply List.mem_append_right
              simp [hm, hc2]
            · rw [if_neg hc2] at hm
              simp at hm

theorem wireId_node_inj (a b : WireId) (h : a.node = b.node) : a = b := by
  cases a
  cases b
  simpa using h

theorem allPipsOf_cons (w : WireId) (info : WireInfo) (rest : WireStore) :
    allPipsOf ((w, info) :: rest) =
      info.wires_uphill.map (fun u => PipId.mk u.node w.node) ++ allPipsOf rest := by
  simp [allPipsOf, allPipsFrom]

theorem mem_allPipsOf (s : WireStore) (p : PipId) :
    p ∈ allPipsOf s ↔
      ∃ e ∈ s, ∃ u ∈ e.2.wires_uphill, p = PipId.mk u.node e.1.node := by
  induction s with
  | nil => simp [allPipsOf, allPipsFrom]
  | cons e rest ih =>
      obtain ⟨w, info⟩ := e
      rw [allPipsOf_cons, List.mem_append, ih]
      constructor
      · intro h
        rcases h with h | h
        · obtain ⟨u, hu, hp⟩ := List.mem_map.mp h
          exact ⟨(w, info), List.mem_cons_self _ _, u, hu, hp.symm⟩
        · obtain ⟨e2, he2, u, hu, hp⟩ := h
          exact ⟨e2, List.mem_cons_of_mem _ he2, u, hu, hp⟩
      · rintro ⟨e2, he2, u, hu, hp⟩
        rcases List.mem_cons.mp he2 with he2 | he2
        · subst he2
          left
          exact List.mem_map.mpr ⟨u, hu, hp.symm⟩
        · right
          exact ⟨e2, he2, u, hu, hp⟩

theorem upDownhillPips_false (v : List WireId) (other : WireId) :
    upDownhillPips v other false = v.map (fun w => PipId.mk other.node w.node) := by
  simp [upDownhillPips]

theorem upDownhillPips_true (v : List WireId) (other : WireId) :
    upDownhillPips v other true = v.map (fun w => PipId.mk w.node other.node) := by
  simp [upDownhillPips]

theorem permSearch_fst_le (ok : List WireId → Bool) (l : List (List WireId)) :
    (permSearch ok l).1 ≤ l.length := by
  induction l with
  | nil => simp [permSearch]
  | cons p rest ih =>
      by_cases h : ok p = true
      · simp [permSearch, h]
      · simp only [permSearch, h, if_false, Bool.false_eq_true, List.length_cons]
        simp [h]
        omega

theorem permSearch_error_iff (ok : List WireId → Bool) (l : List (List WireId)) :
    (permSearch ok l).2 = Except.error ⟨⟩ ↔ ∀ p ∈ l, ok p = false := by
  induction l with
  | nil => simp [permSearch]
  | cons p rest ih =>
      cases h : ok p
      · simp [permSearch, h, ih, List.forall_mem_cons]
      · simp [permSearch, h, List.forall_mem_cons]

theorem permSearch_ok_mem (ok : List WireId → Bool) (l : List (List WireId))
    (p : List WireId) (h : (permSearch ok l).2 = Except.ok p) :
    ok p = true ∧ p ∈ l := by
  induction l with
  | nil => simp [permSearch] at h
  | cons q rest ih =>
      cases hq : ok q
      · simp [permSearch, hq] at h
        obtain ⟨h1, h2⟩ := ih h
        exact ⟨h1, List.mem_cons_of_mem _ h2⟩
      · simp [permSearch, hq] at h
        rw [← h]
        exact ⟨hq, List.mem_cons_self _ _⟩

/-- C1: one full traversal of the all-pips range (getPips / AllPipRange)
yields exactly one PipId per entry of every wire's uphill list — the yielded
sequence is precisely allPipsOf, whose length is the edge count E — and the
traversal terminates with zero results when the store is empty or every
wire's uphill list is empty, for every storage order of the wires. -/
theorem claim_c1_all_pips_traversal (wires : WireStore) :
    getPips wires = some (allPipsOf wires) ∧
    (allPipsOf wires).length = pendingPips wires ∧
    (wires = [] → getPips wires = some []) ∧
    ((∀ e ∈ wires, e.2.wires_uphill = []) → getPips wires = some []) := by
  refine ⟨getPips_eq wires, allPipsOf_length wires, ?_, ?_⟩
  · intro h
    subst h
    rw [getPips_eq]
    rfl
  · intro h
    rw [getPips_eq, allPipsOf_nil_of_empty wires h]

/-- Witness for C1 at concrete stores: the empty store and a store whose
wires all have empty uphill lists both traverse to zero pips. -/
theorem claim_c1_witness :
    getPips ([] : WireStore) = some [] ∧
    getPips [((⟨1⟩ : WireId), (⟨0, [], [], [], 0⟩ : WireInfo)),
      ((⟨2⟩ : WireId), (⟨0, [], [], [], 0⟩ : WireInfo))] = some [] :=
  ⟨(claim_c1_all_pips_traversal []).2.2.1 rfl,
    (claim_c1_all_pips_traversal _).2.2.2 (by decide)⟩

/-- C3: for a wire present in the store, getPipsDownhill yields one pip per
downhill-list entry with the queried wire as source and the entry as
destination, and getPipsUphill yields one pip per uphill-list entry with the
entry as source and the queried wire as destination. -/
theorem claim_c3_updownhill_ranges (s : WireStore) (w : WireId)
    (info : WireInfo) (h : wiresAt s w = some info) :
    getPipsDownhill s w =
      some (info.wires_downhill.map (fun d => PipId.mk w.node d.node))
    ∧ getPipsUphill s w =
      some (info.wires_uphill.map (fun u => PipId.mk u.node w.node))
    ∧ (∀ d ∈ info.wires_downhill,
        getPipSrcWire (PipId.mk w.node d.node) = w ∧
        getPipDstWire (PipId.mk w.node d.node) = d)
    ∧ (∀ u ∈ info.wires_uphill,
        getPipSrcWire (PipId.mk u.node w.node) = u ∧
        getPipDstWire (PipId.mk u.node w.node) = w) := by
  refine ⟨?_, ?_, ?_, ?_⟩
  · simp [getPipsDownhill, h, upDownhillPips]
  · simp [getPipsUphill, h, upDownhillPips]
  · intro d _
    exact ⟨rfl, rfl⟩
  · intro u _
    exact ⟨rfl, rfl⟩

/-- Witness for C3 at a concrete one-wire store with one downhill and one
uphill neighbour. -/
theorem claim_c3_witness :
    getPipsDownhill [((⟨1⟩ : WireId), (⟨0, [⟨2⟩], [⟨3⟩], [], 0⟩ : WireInfo))]
        ⟨1⟩ = some [⟨1, 2⟩] ∧
    getPipsUphill [((⟨1⟩ : WireId), (⟨0, [⟨2⟩], [⟨3⟩], [], 0⟩ : WireInfo))]
        ⟨1⟩ = some [⟨3, 1⟩] :=
  ⟨(claim_c3_updownhill_ranges _ ⟨1⟩ ⟨0, [⟨2⟩], [⟨3⟩], [], 0⟩ (by decide)).1,
    (claim_c3_updownhill_ranges _ ⟨1⟩ ⟨0, [⟨2⟩], [⟨3⟩], [], 0⟩ (by decide)).2.1⟩

/-- C7: on every iterator reachable from AllPipRange::begin() by legal
increments, a state differing from the end sentinel has its wire position on
a live entry of the map and its uphill index strictly below that wire's
uphill-list size, so operator* is in bounds; and incrementing a non-end
iterator lands exactly on the end sentinel iff no further pip remains. -/
theorem claim_c7_allpip_iterator_safety (wires : WireStore)
    (st : AllPipIterator) (h : ReachableIter wires st) :
    (st.neqEnd = true →
      ∃ w info rest, st.base = (w, info) :: rest ∧ (w, info) ∈ wires ∧
        0 ≤ st.uphill_idx ∧ st.uphill_idx.toNat < info.wires_uphill.length ∧
        ∃ p, st.derefO = some p)
    ∧ (st.neqEnd = true → (st.inc = allPipEnd ↔ collectIter st.inc = [])) := by
  obtain ⟨hg, hsuf⟩ := reachableIter_invariant wires st h
  constructor
  · intro hne
    obtain ⟨base, i⟩ := st
    rcases base with _ | ⟨⟨w, info⟩, rest⟩
    · have hi : i = 0 := hg
      subst hi
      simp [AllPipIterator.neqEnd] at hne
    · obtain ⟨hi0, hilt⟩ := hg
      refine ⟨w, info, rest, rfl, ?_, hi0, hilt, ?_⟩
      · exact hsuf.subset (List.mem_cons_self _ _)
      · refine ⟨PipId.mk (info.wires_uphill[i.toNat]).node w.node, ?_⟩
        simp [AllPipIterator.derefO, not_lt.mpr hi0,
          List.getElem?_eq_getElem hilt]
  · intro hne
    have h2 := reachableIter_invariant wires st.inc (ReachableIter.step h hne)
    exact goodIter_end_iff st.inc h2.1

/-- Witness for C7 at a concrete store: the begin iterator of a one-wire
store with one uphill pip dereferences to a value, and its increment is the
end sentinel with nothing left. -/
theorem claim_c7_witness :
    ((allPipBegin [((⟨1⟩ : WireId),
        (⟨0, [], [⟨2⟩], [], 0⟩ : WireInfo))]).derefO).isSome = true := by
  obtain ⟨w, info, rest, hb, hm, h0, hl, p, hp⟩ :=
    (claim_c7_allpip_iterator_safety
      [((⟨1⟩ : WireId), (⟨0, [], [⟨2⟩], [], 0⟩ : WireInfo))] _
      ReachableIter.init).1 (by decide)
  rw [hp]
  rfl

/-- C9: steady-state lookup misses return empty handles, not exceptions:
getBelByLocation returns the null BelId for any location with x or y outside
the grid, or with z negative or at least the tile's bel count; and
getBelPinWire returns the null WireId when the bel has no pin of the given
name. -/
theorem claim_c9_lookup_miss_null :
    (∀ (g : MistralGrid) (loc : Loc),
        (loc.x < 0 ∨ g.tile_sx ≤ loc.x ∨ loc.y < 0 ∨ g.tile_sy ≤ loc.y) →
        getBelByLocation g loc = some BelId.null)
    ∧ (∀ (g : MistralGrid) (loc : Loc) (bels : List BelInfo),
        0 ≤ loc.x → loc.x < g.tile_sx → 0 ≤ loc.y → loc.y < g.tile_sy →
        g.bels_by_tile[(pos2idx g loc.x loc.y).toNat]? = some bels →
        (loc.z < 0 ∨ (bels.length : Int) ≤ loc.z) →
        getBelByLocation g loc = some BelId.null)
    ∧ (∀ (b : BelInfo) (pin : IdString),
        (∀ e ∈ b.pins, e.1 ≠ pin) → getBelPinWire b pin = WireId.null) := by
  refine ⟨?_, ?_, ?_⟩
  · intro g loc h
    by_cases h1 : loc.x < 0 ∨ g.tile_sx ≤ loc.x
    · simp [getBelByLocation, h1]
    · have h2 : loc.y < 0 ∨ g.tile_sy ≤ loc.y := by
        rcases h with h | h | h | h
        · exact absurd (Or.inl h) h1
        · exact absurd (Or.inr h) h1
        · exact Or.inl h
        · exact Or.inr h
      simp [getBelByLocation, h1, h2]
  · intro g loc bels hx0 hx1 hy0 hy1 hb hz
    have h1 : ¬(loc.x < 0 ∨ g.tile_sx ≤ loc.x) := by omega
    have h2 : ¬(loc.y < 0 ∨ g.tile_sy ≤ loc.y) := by omega
    simp [getBelByLocation, h1, h2, hb, hz]
  · intro b pin h
    have hf : b.pins.find? (fun e => e.1 == pin) = none := by
      rw [List.find?_eq_none]
      intro e he
      simp only [beq_iff_eq]
      exact h e he
    simp [getBelPinWire, hf]

/-- Witness for C9: an out-of-grid x on a 2-by-2 grid returns the null bel,
and probing a pin-less bel returns the null wire. -/
theorem claim_c9_witness :
    getBelByLocation ⟨2, 2, [[], [], [], []]⟩ ⟨5, 0, 0⟩ = some BelId.null ∧
    getBelPinWire ⟨0, 0, 0, 0, []⟩ 7 = WireId.null :=
  ⟨claim_c9_lookup_miss_null.1 ⟨2, 2, [[], [], [], []]⟩ ⟨5, 0, 0⟩ (by decide),
    claim_c9_lookup_miss_null.2.2 ⟨0, 0, 0, 0, []⟩ 7 (by decide)⟩

/-- C10: for a WireId that is not a key of the wire store, the checked
lookup wires.at fails (modelled as none) and so getPipsDownhill,
getPipsUphill and getWireBelPins fail rather than returning an empty range. -/
theorem claim_c10_checked_lookup (s : WireStore) (w : WireId)
    (h : ∀ e ∈ s, e.1 ≠ w) :
    wiresAt s w = none ∧ getPipsDownhill s w = none ∧
    getPipsUphill s w = none ∧ getWireBelPins s w = none := by
  have hf : s.find? (fun e => e.1 == w) = none := by
    rw [List.find?_eq_none]
    intro e he
    simp only [beq_iff_eq]
    exact h e he
  have hw : wiresAt s w = none := by simp [wiresAt, hf]
  exact ⟨hw, by simp [getPipsDownhill, hw], by simp [getPipsUphill, hw],
    by simp [getWireBelPins, hw]⟩

/-- Witness for C10 at a concrete store: querying an absent wire fails. -/
theorem claim_c10_witness :
    getPipsDownhill [((⟨1⟩ : WireId), emptyWireInfo)] ⟨2⟩ = none :=
  (claim_c10_checked_lookup [((⟨1⟩ : WireId), emptyWireInfo)] ⟨2⟩
    (by decide)).2.1

/-- C2: is_lab_ctrlset_legal holds iff, for each control category, the
number of distinct control wires bound across the LAB's ten ALMs is at most
the category capacity (3 clocks, 3 enables, 2 async clears, 1 sync clear,
1 sync load); binding a further ALM to an already-counted wire adds nothing
to the distinct count. -/
theorem claim_c2_lab_ctrlset_legal (lab : LABCtrl) :
    (is_lab_ctrlset_legal lab = true ↔
      ((labCtrlWires lab ALMCtrl.clk).toFinset.card ≤ 3 ∧
       (labCtrlWires lab ALMCtrl.ena).toFinset.card ≤ 3 ∧
       (labCtrlWires lab ALMCtrl.aclr).toFinset.card ≤ 2 ∧
       (labCtrlWires lab ALMCtrl.sclr).toFinset.card ≤ 1 ∧
       (labCtrlWires lab ALMCtrl.sload).toFinset.card ≤ 1))
    ∧ (∀ w : WireId, w ∈ labCtrlWires lab ALMCtrl.clk →
        (w :: labCtrlWires lab ALMCtrl.clk).toFinset.card =
          (labCtrlWires lab ALMCtrl.clk).toFinset.card) := by
  constructor
  · simp [is_lab_ctrlset_legal, List.card_toFinset]
  · intro w hw
    rw [List.toFinset_cons, Finset.insert_eq_self.mpr (List.mem_toFinset.mpr hw)]

/-- Witness for C2: a LAB whose first four ALMs use three distinct clock
wires (the fourth sharing the first ALM's clock) is legal; the shared clock
counts once. -/
theorem claim_c2_witness :
    is_lab_ctrlset_legal
      ⟨fun i =>
        if i.val = 0 then ⟨[⟨1⟩], [], [], [], []⟩
        else if i.val = 1 then ⟨[⟨2⟩], [], [], [], []⟩
        else if i.val = 2 then ⟨[⟨3⟩], [], [], [], []⟩
        else if i.val = 3 then ⟨[⟨1⟩], [], [], [], []⟩
        else ⟨[], [], [], [], []⟩⟩ = true :=
  (claim_c2_lab_ctrlset_legal _).1.mpr (by decide)

/-- C4: in every constructed store the two adjacency views agree — B is
downhill of A iff A is uphill of B — and a pip (A, B) is yielded by the
all-pips range (which walks only uphill lists) iff it is yielded by A's
downhill range and iff it is yielded by B's uphill range. -/
theorem claim_c4_adjacency_views_agree (s : WireStore) (A B : WireId)
    (infoA infoB : WireInfo) (hc : Constructed s)
    (hA : wiresAt s A = some infoA) (hB : wiresAt s B = some infoB) :
    (B ∈ infoA.wires_downhill ↔ A ∈ infoB.wires_uphill)
    ∧ getPips s = some (allPipsOf s)
    ∧ (PipId.mk A.node B.node ∈ allPipsOf s ↔
        PipId.mk A.node B.node ∈ (getPipsDownhill s A).getD [])
    ∧ (PipId.mk A.node B.node ∈ allPipsOf s ↔
        PipId.mk A.node B.node ∈ (getPipsUphill s B).getD []) := by
  obtain ⟨hnd, hcl, hag⟩ := constructed_invariant s hc
  have hagAB := hag A B infoA infoB hA hB
  have hup : PipId.mk A.node B.node ∈ allPipsOf s ↔ A ∈ infoB.wires_uphill := by
    rw [mem_allPipsOf]
    constructor
    · rintro ⟨e, he, u, hu, hp⟩
      injection hp with h1 h2
      have hu2 : u = A := wireId_node_inj u A h1.symm
      have he1 : e.1 = B := wireId_node_inj e.1 B h2.symm
      have hee : (B, e.2) ∈ s := by
        rw [← he1]
        exact he
      have hB2 : wiresAt s B = some e.2 := (wiresAt_eq_some_iff s B e.2 hnd).mpr hee
      rw [hB] at hB2
      injection hB2 with hB3
      rw [hB3]
      exact hu2 ▸ hu
    · intro hm
      exact ⟨(B, infoB), (wiresAt_eq_some_iff s B infoB hnd).mp hB, A, hm, rfl⟩
  have hdownEq : getPipsDownhill s A =
      some (upDownhillPips infoA.wires_downhill A false) := by
    simp [getPipsDownhill, hA]
  have hupEq : getPipsUphill s B =
      some (upDownhillPips infoB.wires_uphill B true) := by
    simp [getPipsUphill, hB]
  have hmemD : (PipId.mk A.node B.node ∈ (getPipsDownhill s A).getD []) ↔
      B ∈ infoA.wires_downhill := by
    rw [hdownEq, Option.getD_some, upDownhillPips_false]
    constructor
    · intro hm
      obtain ⟨d, hd, hp⟩ := List.mem_map.mp hm
      injection hp with h1 h2
      exact (wireId_node_inj d B h2) ▸ hd
    · intro hm
      exact List.mem_map.mpr ⟨B, hm, rfl⟩
  have hmemU : (PipId.mk A.node B.node ∈ (getPipsUphill s B).getD []) ↔
      A ∈ infoB.wires_uphill := by
    rw [hupEq, Option.getD_some, upDownhillPips_true]
    constructor
    · intro hm
      obtain ⟨u, hu, hp⟩ := List.mem_map.mp hm
      injection hp with h1 h2
      exact (wireId_node_inj u A h1) ▸ hu
    · intro hm
      exact List.mem_map.mpr ⟨A, hm, rfl⟩
  refine ⟨hagAB, getPips_eq s, ?_, ?_⟩
  · rw [hup, hmemD]
    exact hagAB.symm
  · rw [hup, hmemU]

/-- Witness for C4 at a concrete constructed store holding the single pip
(1, 2). -/
theorem claim_c4_witness :
    ((⟨2⟩ : WireId) ∈ (⟨0, [⟨2⟩], [], [], 0⟩ : WireInfo).wires_downhill ↔
      (⟨1⟩ : WireId) ∈ (⟨0, [], [⟨1⟩], [], 0⟩ : WireInfo).wires_uphill) :=
  (claim_c4_adjacency_views_agree
    (add_pip (add_wire (add_wire [] ⟨1⟩) ⟨2⟩) ⟨1⟩ ⟨2⟩) ⟨1⟩ ⟨2⟩
    ⟨0, [⟨2⟩], [], [], 0⟩ ⟨0, [], [⟨1⟩], [], 0⟩
    (Constructed.pip (Constructed.wire (Constructed.wire Constructed.nil))
      (by decide) (by decide))
    (by decide) (by decide)).1

/-- Counterexample for C5 as stated: calling add_pip(A, B) from a state that
already contains the pip (A, B) leaves B appearing twice, not exactly once,
in A's downhill pip range. -/
theorem claim_c5_counterexample :
    ((getPipsDownhill
        (add_pip (add_pip (add_wire (add_wire ([] : WireStore) ⟨1⟩) ⟨2⟩) ⟨1⟩ ⟨2⟩)
          ⟨1⟩ ⟨2⟩)
        ⟨1⟩).getD []).count (PipId.mk 1 2) = 2 := by decide

/-- C5 (amended): provided the pip is not already present — B not in A's
downhill list and A not in B's uphill list — after add_pip(A, B) the wires
are connected and B appears exactly once in A's downhill pip range and A
exactly once in B's uphill pip range; and in every state wires_connected
(src, dst) is true iff dst appears in src's downhill list. -/
theorem claim_c5_add_pip_amended (s : WireStore) (A B : WireId)
    (infoA infoB : WireInfo)
    (hA : wiresAt s A = some infoA) (hB : wiresAt s B = some infoB)
    (hnD : B ∉ infoA.wires_downhill) (hnU : A ∉ infoB.wires_uphill) :
    wires_connected (add_pip s A B) A B = true
    ∧ ((getPipsDownhill (add_pip s A B) A).getD []).count
        (PipId.mk A.node B.node) = 1
    ∧ ((getPipsUphill (add_pip s A B) B).getD []).count
        (PipId.mk A.node B.node) = 1
    ∧ (∀ src dst : WireId, wires_connected s src dst = true ↔
        ∃ i, wiresAt s src = some i ∧ dst ∈ i.wires_downhill) := by
  have h1 : wiresAt (add_pip s A B) A =
      some { infoA with
        wires_downhill := infoA.wires_downhill ++ [B],
        wires_uphill := infoA.wires_uphill ++ (if A = B then [A] else []) } := by
    rw [add_pip_wiresAt, hA]
    simp
  have h2 : wiresAt (add_pip s A B) B =
      some { infoB with
        wires_downhill := infoB.wires_downhill ++ (if B = A then [B] else []),
        wires_uphill := infoB.wires_uphill ++ [A] } := by
    rw [add_pip_wiresAt, hB]
    simp
  have hinjD : Function.Injective (fun w : WireId => PipId.mk A.node w.node) := by
    intro a b hab
    injection hab with hx hy
    exact wireId_node_inj a b hy
  have hinjU : Function.Injective (fun w : WireId => PipId.mk w.node B.node) := by
    intro a b hab
    injection hab with hx hy
    exact wireId_node_inj a b hx
  refine ⟨?_, ?_, ?_, ?_⟩
  · simp only [wires_connected, h1]
    exact List.elem_iff.mpr
      (List.mem_append_right _ (List.mem_cons_self _ _))
  · have hgd : (getPipsDownhill (add_pip s A B) A).getD [] =
        upDownhillPips (infoA.wires_downhill ++ [B]) A false := by
      simp [getPipsDownhill, h1]
    rw [hgd, upDownhillPips_false]
    have hBf : PipId.mk A.node B.node =
        (fun w : WireId => PipId.mk A.node w.node) B := rfl
    rw [hBf, List.count_map_of_injective _ _ hinjD, List.count_append,
      List.count_eq_zero.mpr hnD]
    simp
  · have hgu : (getPipsUphill (add_pip s A B) B).getD [] =
        upDownhillPips (infoB.wires_uphill ++ [A]) B true := by
      simp [getPipsUphill, h2]
    rw [hgu, upDownhillPips_true]
    have hAf : PipId.mk A.node B.node =
        (fun w : WireId => PipId.mk w.node B.node) A := rfl
    rw [hAf, List.count_map_of_injective _ _ hinjU, List.count_append,
      List.count_eq_zero.mpr hnU]
    simp
  · intro src dst
    cases hs : wiresAt s src with
    | none => simp [wires_connected, hs]
    | some i =>
        simp only [wires_connected, hs]
        rw [List.elem_iff]
        constructor
        · intro hm
          exact ⟨i, rfl, hm⟩
        · rintro ⟨i2, hi2, hm⟩
          injection hi2 with hh
          rw [hh]
          exact hm

/-- Witness for C5 (amended) at a concrete two-wire store. -/
theorem claim_c5_witness :
    wires_connected (add_pip (add_wire (add_wire ([] : WireStore) ⟨1⟩) ⟨2⟩)
      ⟨1⟩ ⟨2⟩) ⟨1⟩ ⟨2⟩ = true :=
  (claim_c5_add_pip_amended (add_wire (add_wire ([] : WireStore) ⟨1⟩) ⟨2⟩)
    ⟨1⟩ ⟨2⟩ emptyWireInfo emptyWireInfo
    (by decide) (by decide) (by decide) (by decide)).1

/-- C6: the all-wires range is exactly the store's key set: no key repeated
in a constructed store, one result per entry, membership iff the wire was
stored, a just-added wire appears, and re-adding an existing wire changes
nothing. -/
theorem claim_c6_all_wires_range (s : WireStore) (w : WireId)
    (hc : Constructed s) :
    (getWires s).Nodup
    ∧ (getWires s).length = s.length
    ∧ (∀ v, v ∈ getWires s ↔ ∃ i, (v, i) ∈ s)
    ∧ w ∈ getWires (add_wire s w)
    ∧ add_wire (add_wire s w) w = add_wire s w := by
  obtain ⟨hnd, _, _⟩ := constructed_invariant s hc
  have hmem : w ∈ getWires (add_wire s w) := by
    by_cases hp : s.any (fun e => e.1 == w) = true
    · rw [add_wire, if_pos hp]
      exact (any_key_iff s w).mp hp
    · rw [add_wire, if_neg hp, getWires_append]
      apply List.mem_append_right
      simp [getWires]
  refine ⟨hnd, by simp [getWires], fun v => mem_getWires s v, hmem, ?_⟩
  have hp2 : (add_wire s w).any (fun e => e.1 == w) = true :=
    (any_key_iff _ w).mpr hmem
  rw [add_wire, if_pos hp2]

/-- Witness for C6: keys of a concrete constructed two-wire store are
distinct, via the Constructed derivation of that store. -/
theorem claim_c6_witness :
    (getWires (add_wire (add_wire ([] : WireStore) ⟨1⟩) ⟨2⟩)).Nodup :=
  (claim_c6_all_wires_range _ ⟨3⟩
    (Constructed.wire (Constructed.wire Constructed.nil))).1

/-- C8: reassign_alm_inputs terminates within a bounded number of
permutation attempts — at most (number of inputs)! — and fails with
UnresolvableBindingError exactly when no permutation of the inputs satisfies
the packing predicate; a returned assignment satisfies the predicate and is
a permutation of the inputs, so the set of selected wires never changes. -/
theorem claim_c8_reassign_bounded (inputs : List WireId)
    (ok : List WireId → Bool) :
    (reassign_alm_inputs inputs ok).1 ≤ Nat.factorial inputs.length
    ∧ ((reassign_alm_inputs inputs ok).2 = Except.error ⟨⟩ ↔
        ∀ p, p.Perm inputs → ok p = false)
    ∧ (∀ p, (reassign_alm_inputs inputs ok).2 = Except.ok p →
        ok p = true ∧ p.Perm inputs) := by
  refine ⟨?_, ?_, ?_⟩
  · have h := permSearch_fst_le ok inputs.permutations
    rw [List.length_permutations] at h
    exact h
  · rw [reassign_alm_inputs, permSearch_error_iff]
    constructor
    · intro hall p hp
      exact hall p (List.mem_permutations.mpr hp)
    · intro hall p hp
      exact hall p (List.mem_permutations.mp hp)
  · intro p hp
    obtain ⟨hok, hmem⟩ := permSearch_ok_mem ok inputs.permutations p hp
    exact ⟨hok, List.mem_permutations.mp hmem⟩

/-- Witness for C8: with an unsatisfiable packing predicate the search on a
one-input ALM exhausts its permutations and reports the binding error. -/
theorem claim_c8_witness :
    (reassign_alm_inputs [(⟨1⟩ : WireId)] (fun _ => false)).2 =
      Except.error ⟨⟩ :=
  (claim_c8_reassign_bounded [(⟨1⟩ : WireId)] (fun _ => false)).2.1.mpr
    (fun p hp => rfl)
